import Mathlib

/-!
Shallow embedding of `src/prime_tools.rs` (`PrimeTools<T>`), instantiated at
the integer type `T = ℕ`.

The mutable field `primes: Vec<T>` is modelled as an explicit `List ℕ` threaded
through each operation.  Unbounded `loop`/`while` constructs take a `fuel`
parameter; running out of fuel yields `Res.timeout` (so genuine divergence of
the Rust code shows up as `timeout` for every fuel).  A Rust panic (vector
index out of bounds, `unwrap` on `None`) is `Res.panic`.  The `BTreeMap`
accumulated by `prime_factorization` is modelled as an association list in
ascending key order, which matches `BTreeMap` iteration order because keys are
inserted in strictly increasing order (proved below); the `BTreeSet` returned
by `factors` is a `Finset ℕ`.
-/

namespace PrimeTools

/-- Result of running a fragment of the Rust code: a value, a panic, or fuel
exhaustion (modelling potential divergence). -/
inductive Res (α : Type) where
  | ok : α → Res α
  | panic : Res α
  | timeout : Res α
  deriving DecidableEq, Repr

/-- Auxiliary for `isqrt`: largest `b ≤ a` with `b * b ≤ n` (0 if none). -/
def isqrtAux (n : ℕ) : ℕ → ℕ
  | 0 => 0
  | a + 1 => if (a + 1) * (a + 1) ≤ n then a + 1 else isqrtAux n a

/-- Integer (floor) square root, the `num::integer::Roots::sqrt` used by the
source at `T = ℕ`.  Defined by structural recursion so that it evaluates by
`decide`; proved equal to `Nat.sqrt` below. -/
def isqrt (n : ℕ) : ℕ := isqrtAux n n

/-- `PrimeTools::new` (lines 13-21): cache seeded from `one`. -/
def new : List ℕ :=
  let one : ℕ := 1
  let two := one + one
  let three := one + two
  [two, three]

/-- The candidate-testing `loop` inside `add_prime` (lines 119-127). -/
def add_prime_loop (primes : List ℕ) (next_prime : ℕ) : ℕ → Res (List ℕ)
  | 0 => .timeout
  | fuel + 1 =>
    if primes.all (fun p => next_prime % p != 0) then .ok (primes ++ [next_prime])
    else add_prime_loop primes (next_prime + 2) fuel

/-- `PrimeTools::add_prime` (lines 115-128). -/
def add_prime (primes : List ℕ) (fuel : ℕ) : Res (List ℕ) :=
  match primes.getLast? with
  | none => .panic
  | some last => add_prime_loop primes (last + 2) fuel

/-- `PrimeTools::fill_n_primes` (lines 130-134): `while primes.len() < n { add_prime() }`.
Fuel counts loop iterations: with no fuel left, an iteration that would run
times out instead. -/
def fill_n_primes : ℕ → List ℕ → ℕ → Res (List ℕ)
  | 0, primes, n => if primes.length < n then .timeout else .ok primes
  | fuel + 1, primes, n =>
    if primes.length < n then
      match add_prime primes fuel with
      | .ok primes' => fill_n_primes fuel primes' n
      | .panic => .panic
      | .timeout => .timeout
    else .ok primes

/-- `PrimeTools::fill_till_n` (lines 136-140): `while primes.last().unwrap() < n { add_prime() }`.
Fuel counts loop iterations, as in `fill_n_primes`. -/
def fill_till_n : ℕ → List ℕ → ℕ → Res (List ℕ)
  | 0, primes, n =>
    match primes.getLast? with
    | none => .panic
    | some last => if last < n then .timeout else .ok primes
  | fuel + 1, primes, n =>
    match primes.getLast? with
    | none => .panic
    | some last =>
      if last < n then
        match add_prime primes fuel with
        | .ok primes' => fill_till_n fuel primes' n
        | .panic => .panic
        | .timeout => .timeout
      else .ok primes

/-- `PrimeTools::get_prime` (lines 23-26): `fill_n_primes(n); &primes[n]`. -/
def get_prime (fuel : ℕ) (primes : List ℕ) (n : ℕ) : Res (ℕ × List ℕ) :=
  match fill_n_primes fuel primes n with
  | .ok primes' =>
    match primes'.get? n with
    | some v => .ok (v, primes')
    | none => .panic
  | .panic => .panic
  | .timeout => .timeout

/-- `PrimeTools::is_prime` (lines 28-35).  The condition
`&self.primes[self.primes.len()] >= n` indexes position `primes.len()`, which
is one past the last valid index, so evaluating the condition panics. -/
def is_prime (fuel : ℕ) (primes : List ℕ) (n : ℕ) : Res (Bool × List ℕ) :=
  match primes.get? primes.length with
  | none => .panic
  | some v =>
    if n ≤ v then .ok (primes.contains n, primes)
    else
      match fill_till_n fuel primes (isqrt n) with
      | .ok primes' => .ok (primes'.all (fun p => n % p != 0), primes')
      | .panic => .panic
      | .timeout => .timeout

/-- The inner `while &m % p == 0 { exp += 1; m = m / p; }` of
`prime_factorization` (lines 49-52). -/
def div_loop (p : ℕ) : ℕ → ℕ → ℕ → Res (ℕ × ℕ)
  | _, _, 0 => .timeout
  | m, exp, fuel + 1 =>
    if m % p = 0 then div_loop p (m / p) (exp + 1) fuel
    else .ok (m, exp)

/-- The `for p in (0..).map(|k| &self.primes[k])` scan of
`prime_factorization` (lines 45-64).  Running past the end of the cached
primes is the out-of-bounds read `self.primes[k]`, hence `.panic`. -/
def factor_scan (fuel : ℕ) : ℕ → ℕ → List (ℕ × ℕ) → List ℕ → Res (List (ℕ × ℕ))
  | _, _, _, [] => .panic
  | m, sqrt_m, acc, p :: rest =>
    if m % p = 0 then
      match div_loop p (m / p) 1 fuel with
      | .ok (m', exp) =>
        let acc' := acc ++ [(p, exp)]
        let sqrt' := isqrt m'
        if sqrt' < p then .ok (if m' ≠ 1 then acc' ++ [(m', 1)] else acc')
        else factor_scan fuel m' sqrt' acc' rest
      | .panic => .panic
      | .timeout => .timeout
    else
      if sqrt_m < p then .ok (if m ≠ 1 then acc ++ [(m, 1)] else acc)
      else factor_scan fuel m sqrt_m acc rest

/-- `PrimeTools::prime_factorization` (lines 37-67). -/
def prime_factorization (fuel : ℕ) (primes : List ℕ) (n : ℕ) :
    Res (List (ℕ × ℕ) × List ℕ) :=
  let sqrt_m := isqrt n
  match fill_till_n fuel primes sqrt_m with
  | .ok primes' =>
    match factor_scan fuel n sqrt_m [] primes' with
    | .ok l => .ok (l, primes')
    | .panic => .panic
    | .timeout => .timeout
  | .panic => .panic
  | .timeout => .timeout

/-- The `for ((prime, &exp), current_exp) in ...zip(...)` body of `factors`
(lines 78-87): state is the zip of the factorization entries with the current
exponent vector. -/
def odo_step : List (ℕ × ℕ × ℕ) → ℕ → List (ℕ × ℕ × ℕ) × ℕ
  | [], f => ([], f)
  | (p, exp, cur) :: rest, f =>
    if cur < exp then ((p, exp, cur + 1) :: rest, f * p)
    else
      let r := odo_step rest (f / p ^ exp)
      ((p, exp, 0) :: r.1, r.2)

/-- The outer `loop` of `factors` (lines 76-92): insert the current factor,
advance the odometer, stop when the factor returns to one. -/
def odo_loop : ℕ → List (ℕ × ℕ × ℕ) → ℕ → Finset ℕ → Res (Finset ℕ)
  | 0, _, _, _ => .timeout
  | fuel + 1, st, f, acc =>
    let acc' := insert f acc
    let r := odo_step st f
    if r.2 = 1 then .ok acc'
    else odo_loop fuel r.1 r.2 acc'

/-- `PrimeTools::factors` (lines 69-95). -/
def factors (fuel : ℕ) (primes : List ℕ) (n : ℕ) : Res (Finset ℕ × List ℕ) :=
  match prime_factorization fuel primes n with
  | .ok (l, primes') =>
    match odo_loop fuel (l.map fun pe => (pe.1, pe.2, 0)) 1 ∅ with
    | .ok s => .ok (s, primes')
    | .panic => .panic
    | .timeout => .timeout
  | .panic => .panic
  | .timeout => .timeout

/-- The fold of `factor_sum` (lines 98-104):
`sum = sum * (pow(prime, exp + 1) - 1) / (prime - 1)` over the entries. -/
def factor_sum_fold (l : List (ℕ × ℕ)) : ℕ :=
  l.foldl (fun sum pe => sum * (pe.1 ^ (pe.2 + 1) - 1) / (pe.1 - 1)) 1

/-- `PrimeTools::factor_sum` (lines 97-105). -/
def factor_sum (fuel : ℕ) (primes : List ℕ) (n : ℕ) : Res (ℕ × List ℕ) :=
  match prime_factorization fuel primes n with
  | .ok (l, primes') => .ok (factor_sum_fold l, primes')
  | .panic => .panic
  | .timeout => .timeout

/-- The fold of `factor_count` (lines 108-112): `count *= exp + 1`. -/
def factor_count_fold (l : List (ℕ × ℕ)) : ℕ :=
  l.foldl (fun count pe => count * (pe.2 + 1)) 1

/-- `PrimeTools::factor_count` (lines 107-113). -/
def factor_count (fuel : ℕ) (primes : List ℕ) (n : ℕ) : Res (ℕ × List ℕ) :=
  match prime_factorization fuel primes n with
  | .ok (l, primes') => .ok (factor_count_fold l, primes')
  | .panic => .panic
  | .timeout => .timeout

/-- `PrimeIterator::next` (lines 172-175): `pos += 1; get_prime(pos - 1)`. -/
def iter_next (fuel : ℕ) (primes : List ℕ) (pos : ℕ) : Res (ℕ × List ℕ × ℕ) :=
  match get_prime fuel primes pos with
  | .ok (v, primes') => .ok (v, primes', pos + 1)
  | .panic => .panic
  | .timeout => .timeout

/-- Taking `k` successive values from a `PrimeIterator` starting at `pos`
(the iterator as produced by `iter_primes`, lines 142-144, starts at 0). -/
def iter_take (fuel : ℕ) : ℕ → List ℕ → ℕ → Res (List ℕ)
  | 0, _, _ => .ok []
  | k + 1, primes, pos =>
    match iter_next fuel primes pos with
    | .ok (v, primes', pos') =>
      match iter_take fuel k primes' pos' with
      | .ok vs => .ok (v :: vs)
      | .panic => .panic
      | .timeout => .timeout
    | .panic => .panic
    | .timeout => .timeout

/-- Largest cached prime (`primes.last()`), defaulting to 0 for an empty cache. -/
def lastD (s : List ℕ) : ℕ := (s.getLast?).getD 0

/-- The prime-cache invariant of spec section 3: strictly ascending, contains
2 and 3 (the seeds), contains only primes, and has no gaps: every prime up to
the maximum cached value is present. -/
def IsCache (s : List ℕ) : Prop :=
  List.Pairwise (· < ·) s ∧ 2 ∈ s ∧ 3 ∈ s ∧ (∀ p ∈ s, Nat.Prime p) ∧
    ∀ r < lastD s + 1, Nat.Prime r → r ∈ s

instance : DecidablePred IsCache := fun s =>
  inferInstanceAs (Decidable (List.Pairwise (· < ·) s ∧ 2 ∈ s ∧ 3 ∈ s ∧
    (∀ p ∈ s, Nat.Prime p) ∧ ∀ r < lastD s + 1, Nat.Prime r → r ∈ s))

/-- Product of `p ^ e` over the entries of a factorization list. -/
def prodPE (l : List (ℕ × ℕ)) : ℕ := (l.map fun pe => pe.1 ^ pe.2).prod

/-- Number of exponent combinations of a factorization list, `∏ (e + 1)`. -/
def tauOf (l : List (ℕ × ℕ)) : ℕ := (l.map fun pe => pe.2 + 1).prod

/-- A well-formed factorization result: prime keys, positive exponents,
keys strictly ascending. -/
def ValidFact (l : List (ℕ × ℕ)) : Prop :=
  (∀ pe ∈ l, Nat.Prime pe.1 ∧ 1 ≤ pe.2) ∧ List.Chain' (fun a b => a.1 < b.1) l

/-- Mixed-radix digits of `v` along the exponent vector of `l` (least
significant digit first), fused with the factorization entries: this is the
odometer state reached after `v` steps of the `factors` loop. -/
def digitsMR : List (ℕ × ℕ) → ℕ → List (ℕ × ℕ × ℕ)
  | [], _ => []
  | pe :: rest, v => (pe.1, pe.2, v % (pe.2 + 1)) :: digitsMR rest (v / (pe.2 + 1))

/-- The divisor enumerated at odometer position `v`: `∏ p ^ digit`. -/
def factorOf : List (ℕ × ℕ) → ℕ → ℕ
  | [], _ => 1
  | pe :: rest, v => pe.1 ^ (v % (pe.2 + 1)) * factorOf rest (v / (pe.2 + 1))

/-- The suffix `L` of the cache contains, in ascending order, exactly the
primes in the interval `(b, lastD L]`: no prime hides between `b` and the
head, nor between consecutive elements. -/
def NoGaps : ℕ → List ℕ → Prop
  | _, [] => True
  | b, p :: rest =>
    Nat.Prime p ∧ b < p ∧ (∀ r, Nat.Prime r → b < r → r < p → False) ∧ NoGaps p rest

end PrimeTools

namespace PrimeTools

theorem isqrtAux_le (n : ℕ) : ∀ a, Nat.sqrt n ≤ a → isqrtAux n a = Nat.sqrt n := by
  intro a
  induction a with
  | zero => intro h; rw [isqrtAux]; omega
  | succ a ih =>
    intro h
    rw [isqrtAux]
    by_cases hc : (a + 1) * (a + 1) ≤ n
    · rw [if_pos hc]
      have h2 := Nat.le_sqrt.mpr hc
      omega
    · rw [if_neg hc]
      refine ih ?_
      by_contra hlt
      exact hc (Nat.le_sqrt.mp (by omega))

theorem isqrt_eq (n : ℕ) : isqrt n = Nat.sqrt n :=
  isqrtAux_le n n (Nat.sqrt_le_self n)

theorem fill_n_new_le2 (fuel : ℕ) {n : ℕ} (h : n ≤ 2) : fill_n_primes fuel new n = .ok new := by
  have h2 : ¬ (new.length < n) := by rw [show new.length = 2 from rfl]; omega
  cases fuel with
  | zero => rw [fill_n_primes, if_neg h2]
  | succ f => rw [fill_n_primes, if_neg h2]

theorem get_prime_new_0 (fuel : ℕ) : get_prime fuel new 0 = .ok (2, new) := by
  rw [get_prime, fill_n_new_le2 fuel (by omega)]; rfl

theorem get_prime_new_1 (fuel : ℕ) : get_prime fuel new 1 = .ok (3, new) := by
  rw [get_prime, fill_n_new_le2 fuel (by omega)]; rfl

theorem get_prime_new_2 (fuel : ℕ) : get_prime fuel new 2 = .panic := by
  rw [get_prime, fill_n_new_le2 fuel (by omega)]; rfl

theorem iter_take_succ (fuel : ℕ) (k : ℕ) (s : List ℕ) (pos : ℕ) :
    iter_take fuel (k + 1) s pos =
      match iter_next fuel s pos with
      | .ok (v, s', pos') =>
        match iter_take fuel k s' pos' with
        | .ok vs => .ok (v :: vs)
        | .panic => .panic
        | .timeout => .timeout
      | .panic => .panic
      | .timeout => .timeout := rfl

theorem iter_take_cons (fuel k : ℕ) (s : List ℕ) (pos v : ℕ) (s' : List ℕ) (pos' : ℕ)
    (h : iter_next fuel s pos = .ok (v, s', pos')) :
    iter_take fuel (k + 1) s pos =
      match iter_take fuel k s' pos' with
      | .ok vs => .ok (v :: vs)
      | .panic => .panic
      | .timeout => .timeout := by
  rw [iter_take_succ, h]

theorem iter_next_new_0 (fuel : ℕ) : iter_next fuel new 0 = .ok (2, new, 1) := by
  rw [iter_next, get_prime_new_0]

theorem iter_next_new_1 (fuel : ℕ) : iter_next fuel new 1 = .ok (3, new, 2) := by
  rw [iter_next, get_prime_new_1]

theorem iter_next_new_2 (fuel : ℕ) : iter_next fuel new 2 = .panic := by
  rw [iter_next, get_prime_new_2]

theorem fill_till_new_3 (fuel : ℕ) : fill_till_n fuel new 3 = .ok new := by
  cases fuel <;> rfl

theorem div_loop_zero (p : ℕ) : ∀ e fuel, div_loop p 0 e fuel = .timeout := by
  intro e fuel
  induction fuel generalizing e with
  | zero => rfl
  | succ f ih => rw [div_loop]; simp only [Nat.zero_mod, if_pos rfl, Nat.zero_div]; exact ih _

theorem fill_till_zero_bound (fuel : ℕ) (s : List ℕ) (last : ℕ)
    (hl : s.getLast? = some last) : fill_till_n fuel s 0 = .ok s := by
  cases fuel with
  | zero => rw [fill_till_n, hl]; simp
  | succ f => rw [fill_till_n, hl]; simp

end PrimeTools

open PrimeTools

/-- Claim C1: `is_prime` is claimed to read a valid cached element when it
compares `n` against the cache's maximum.  In fact the comparison
`&self.primes[self.primes.len()] >= n` always indexes one past the last valid
position, so every call of `is_prime` — for every fuel, every cache state and
every input — panics before reaching either answer path. -/
theorem claim_C1_is_prime_oob (fuel : ℕ) (s : List ℕ) (n : ℕ) :
    is_prime fuel s n = .panic := by
  have h : s.get? s.length = none := List.get?_eq_none.mpr (le_refl _)
  rw [is_prime, h]

/-- Claim C2: `get_prime(n)` is claimed to grow the cache to at least `n + 1`
entries so that index `n` is valid.  In fact `fill_n_primes` only guarantees
`n` entries (`while len < n`), so on a fresh instance `get_prime(2)` leaves
the two-element seed cache untouched and the lookup at index 2 is out of
bounds: it panics for every fuel. -/
theorem claim_C2_get_prime_oob (fuel : ℕ) : get_prime fuel new 2 = .panic :=
  get_prime_new_2 fuel

/-- Claim C3: the first 10 values of `iter_primes()` on a fresh instance are
claimed to be [2,3,5,7,11,13,17,19,23,29].  In fact the third `next()` call
invokes `get_prime(2)`, which reads index 2 of the still two-element cache and
panics, so taking 10 values panics (after yielding 2 and 3) for every fuel. -/
theorem claim_C3_iter_panics (fuel : ℕ) : iter_take fuel 10 new 0 = .panic := by
  rw [show (10 : ℕ) = 9 + 1 from rfl, iter_take_cons fuel 9 new 0 2 new 1 (iter_next_new_0 fuel)]
  rw [show (9 : ℕ) = 8 + 1 from rfl, iter_take_cons fuel 8 new 1 3 new 2 (iter_next_new_1 fuel)]
  rw [show (8 : ℕ) = 7 + 1 from rfl, iter_take_succ, iter_next_new_2]

/-- Claim C4: the scan of `prime_factorization` is claimed to stay in bounds
and stop at a cached prime exceeding the shrinking integer square root of the
remainder.  In fact on a fresh instance with n = 11, `fill_till_n` stops with
largest cached prime 3 = isqrt 11, the scan exhausts the cache without ever
finding a prime strictly greater than the root, and the next read
`self.primes[2]` is out of bounds: it panics for every fuel. -/
theorem claim_C4_scan_oob (fuel : ℕ) : prime_factorization fuel new 11 = .panic := by
  rw [prime_factorization, show isqrt 11 = 3 from rfl, fill_till_new_3]
  rfl

/-- Claim C10: called with input 0, `prime_factorization` does not terminate:
0 is divisible by the first cached prime and 0 / p = 0, so the inner
divide-out loop runs forever.  In the fuel semantics the call times out for
every fuel and every nonempty cache. -/
theorem claim_C10_zero_diverges (fuel : ℕ) (s : List ℕ) (hs : s ≠ []) :
    prime_factorization fuel s 0 = .timeout := by
  match s with
  | p :: rest =>
    obtain ⟨last, hl⟩ := Option.isSome_iff_exists.mp (List.getLast?_isSome.mpr hs)
    rw [prime_factorization, show isqrt 0 = 0 from rfl,
      fill_till_zero_bound fuel (p :: rest) last hl]
    have hscan : factor_scan fuel 0 0 [] (p :: rest) = .timeout := by
      rw [factor_scan.eq_def]
      dsimp only
      rw [if_pos (Nat.zero_mod p), Nat.zero_div, div_loop_zero]
    dsimp only
    rw [hscan]

/-- Witness for C10 at the fresh cache with fuel 5. -/
theorem claim_C10_witness : new ≠ [] ∧ prime_factorization 5 new 0 = .timeout :=
  ⟨by decide, claim_C10_zero_diverges 5 new (by decide)⟩

namespace PrimeTools

theorem getLast?_eq_lastD {s : List ℕ} (hs : s ≠ []) : s.getLast? = some (lastD s) := by
  rw [lastD, List.getLast?_eq_getLast s hs]
  rfl

theorem lastD_mem {s : List ℕ} (hs : s ≠ []) : lastD s ∈ s :=
  List.mem_of_mem_getLast? (by rw [getLast?_eq_lastD hs]; rfl)

theorem lastD_cons_cons (a b : ℕ) (t : List ℕ) : lastD (a :: b :: t) = lastD (b :: t) := by
  rw [lastD, lastD, List.getLast?_cons_cons]

theorem all_le_lastD {s : List ℕ} (hc : List.Pairwise (· < ·) s) : ∀ p ∈ s, p ≤ lastD s := by
  induction s with
  | nil => intro p hp; cases hp
  | cons a rest ih =>
    intro p hp
    cases rest with
    | nil =>
      rcases List.mem_cons.mp hp with rfl | h
      · simp [lastD]
      · cases h
    | cons b t =>
      rw [lastD_cons_cons]
      have hcr := (List.pairwise_cons.mp hc).2
      rcases List.mem_cons.mp hp with rfl | h
      · have h1 : p < b := (List.pairwise_cons.mp hc).1 b (List.mem_cons_self b t)
        have h2 := ih hcr b (List.mem_cons_self b t)
        omega
      · exact ih hcr p h

theorem IsCache.ne_nil {s : List ℕ} (h : IsCache s) : s ≠ [] :=
  List.ne_nil_of_mem h.2.1

theorem IsCache.mem_iff {s : List ℕ} (h : IsCache s) {p : ℕ} :
    p ∈ s ↔ Nat.Prime p ∧ p ≤ lastD s :=
  ⟨fun hp => ⟨h.2.2.2.1 p hp, all_le_lastD h.1 p hp⟩,
   fun hpp => h.2.2.2.2 p (by omega) hpp.1⟩

theorem IsCache.lastD_prime {s : List ℕ} (h : IsCache s) : Nat.Prime (lastD s) :=
  h.2.2.2.1 _ (lastD_mem h.ne_nil)

theorem IsCache.lastD_ge_3 {s : List ℕ} (h : IsCache s) : 3 ≤ lastD s :=
  all_le_lastD h.1 3 h.2.2.1

theorem IsCache.lastD_odd {s : List ℕ} (h : IsCache s) : lastD s % 2 = 1 := by
  have hp := h.lastD_prime
  have h3 := h.lastD_ge_3
  exact Nat.odd_iff.mp (hp.odd_of_ne_two (by omega))

theorem trial_pass {s : List ℕ} (h : IsCache s) {c : ℕ} (hc : Nat.Prime c)
    (hgt : lastD s < c) : (s.all fun p => c % p != 0) = true := by
  rw [List.all_eq_true]
  intro p hp
  rw [bne_iff_ne]
  intro hdvd
  have hpp := h.2.2.2.1 p hp
  have hple := all_le_lastD h.1 p hp
  rcases hc.eq_one_or_self_of_dvd p (Nat.dvd_of_mod_eq_zero hdvd) with h1 | h2
  · exact hpp.one_lt.ne' h1
  · omega

theorem trial_fail {s : List ℕ} (h : IsCache s) {c : ℕ} (hnp : ¬ Nat.Prime c)
    (hgt : lastD s < c) (hle : c ≤ lastD s * lastD s) :
    (s.all fun p => c % p != 0) = false := by
  have h3 := h.lastD_ge_3
  have hc2 : 2 ≤ c := by omega
  have hmf_prime := Nat.minFac_prime (by omega : c ≠ 1)
  have hsq : c.minFac * c.minFac ≤ c := by
    have := Nat.minFac_sq_le_self (by omega : 0 < c) hnp
    rwa [pow_two] at this
  have hmfle : c.minFac ≤ lastD s := by
    by_contra hgt2
    push_neg at hgt2
    have h1 : (lastD s + 1) * (lastD s + 1) ≤ c.minFac * c.minFac :=
      Nat.mul_le_mul hgt2 hgt2
    nlinarith
  have hmem : c.minFac ∈ s := h.mem_iff.mpr ⟨hmf_prime, hmfle⟩
  rw [Bool.eq_false_iff]
  intro hall
  have hx := List.all_eq_true.mp hall c.minFac hmem
  rw [bne_iff_ne] at hx
  exact hx (Nat.mod_eq_zero_of_dvd (Nat.minFac_dvd c))

theorem next_prime_exists (M : ℕ) (hM : M ≠ 0) :
    ∃ q, Nat.Prime q ∧ M < q ∧ (∀ r, Nat.Prime r → M < r → q ≤ r) ∧ q ≤ 2 * M := by
  obtain ⟨p, hp, hlt, hle⟩ := Nat.exists_prime_lt_and_le_two_mul M hM
  have hex : ∃ n, M < n ∧ Nat.Prime n := ⟨p, hlt, hp⟩
  refine ⟨Nat.find hex, (Nat.find_spec hex).2, (Nat.find_spec hex).1, ?_, ?_⟩
  · intro r hr hMr
    exact Nat.find_min' hex ⟨hMr, hr⟩
  · exact le_trans (Nat.find_min' hex ⟨hlt, hp⟩) hle

theorem add_prime_loop_sound {s : List ℕ} (h : IsCache s) {q : ℕ} (hq : Nat.Prime q)
    (hqgt : lastD s < q) (hqmin : ∀ r, Nat.Prime r → lastD s < r → q ≤ r)
    (hq2M : q ≤ 2 * lastD s) :
    ∀ fuel c, lastD s < c → c ≤ q → c % 2 = 1 →
      (∀ s', add_prime_loop s c fuel = .ok s' → s' = s ++ [q]) ∧
      (q - c < 2 * fuel → add_prime_loop s c fuel = .ok (s ++ [q])) := by
  have h3 := h.lastD_ge_3
  have hqodd : q % 2 = 1 := Nat.odd_iff.mp (hq.odd_of_ne_two (by omega))
  intro fuel
  induction fuel with
  | zero =>
    intro c hgt hle hodd
    constructor
    · intro s' hok
      exact absurd hok (by rw [add_prime_loop]; intro hx; cases hx)
    · omega
  | succ f ih =>
    intro c hgt hle hodd
    have hcq : c < q ∨ c = q := by omega
    rcases hcq with hlt | rfl
    · -- c is composite: the loop advances
      have hnp : ¬ Nat.Prime c := fun hcp => by
        have := hqmin c hcp hgt
        omega
      have hcle : c ≤ lastD s * lastD s := by nlinarith
      have hfail := trial_fail h hnp hgt hcle
      rw [add_prime_loop, hfail]
      have hstep := ih (c + 2) (by omega) (by omega) (by omega)
      constructor
      · intro s' hok
        simp only [Bool.false_eq_true, if_false] at hok
        exact hstep.1 s' hok
      · intro hfuel
        simp only [Bool.false_eq_true, if_false]
        exact hstep.2 (by omega)
    · -- c = q: the candidate passes and is appended
      have hpass := trial_pass h hq hqgt
      rw [add_prime_loop, hpass]
      constructor
      · intro s' hok
        simp only [if_true] at hok
        cases hok
        rfl
      · intro _
        simp only [if_true]

theorem add_prime_spec {s : List ℕ} (h : IsCache s) :
    ∃ q, Nat.Prime q ∧ lastD s < q ∧ (∀ r, Nat.Prime r → lastD s < r → q ≤ r) ∧
      (∀ fuel s', add_prime s fuel = .ok s' → s' = s ++ [q]) ∧
      add_prime s q = .ok (s ++ [q]) := by
  have h3 := h.lastD_ge_3
  have hModd := h.lastD_odd
  obtain ⟨q, hq, hqgt, hqmin, hq2M⟩ := next_prime_exists (lastD s) (by omega)
  have hqodd : q % 2 = 1 := Nat.odd_iff.mp (hq.odd_of_ne_two (by omega))
  have hc0 : lastD s < lastD s + 2 := by omega
  have hc0le : lastD s + 2 ≤ q := by omega
  have hc0odd : (lastD s + 2) % 2 = 1 := by omega
  have hsound := add_prime_loop_sound h hq hqgt hqmin hq2M
  refine ⟨q, hq, hqgt, hqmin, ?_, ?_⟩
  · intro fuel s' hok
    rw [add_prime, getLast?_eq_lastD h.ne_nil] at hok
    exact (hsound fuel (lastD s + 2) hc0 hc0le hc0odd).1 s' hok
  · rw [add_prime, getLast?_eq_lastD h.ne_nil]
    exact (hsound q (lastD s + 2) hc0 hc0le hc0odd).2 (by omega)

theorem isCache_append {s : List ℕ} (h : IsCache s) {q : ℕ} (hq : Nat.Prime q)
    (hqgt : lastD s < q) (hqmin : ∀ r, Nat.Prime r → lastD s < r → q ≤ r) :
    IsCache (s ++ [q]) ∧ lastD (s ++ [q]) = q := by
  have hlast : lastD (s ++ [q]) = q := by
    rw [lastD, List.getLast?_concat]
    rfl
  refine ⟨⟨?_, ?_, ?_, ?_, ?_⟩, hlast⟩
  · rw [List.pairwise_append]
    refine ⟨h.1, List.pairwise_singleton _ q, ?_⟩
    intro x hx y hy
    rw [List.mem_singleton.mp hy]
    have := all_le_lastD h.1 x hx
    omega
  · exact List.mem_append_left _ h.2.1
  · exact List.mem_append_left _ h.2.2.1
  · intro p hp
    rcases List.mem_append.mp hp with hl | hr
    · exact h.2.2.2.1 p hl
    · rw [List.mem_singleton.mp hr]
      exact hq
  · intro r hr hrp
    rw [hlast] at hr
    by_cases hrM : r ≤ lastD s
    · exact List.mem_append_left _ (h.mem_iff.mpr ⟨hrp, hrM⟩)
    · push_neg at hrM
      have hqr := hqmin r hrp hrM
      have : r = q := by omega
      subst this
      exact List.mem_append_right _ (List.mem_singleton_self r)

theorem add_prime_char {s : List ℕ} (h : IsCache s) {fuel : ℕ} {s' : List ℕ}
    (hok : add_prime s fuel = .ok s') :
    ∃ q, s' = s ++ [q] ∧ Nat.Prime q ∧ lastD s < q ∧
      (∀ r, Nat.Prime r → lastD s < r → q ≤ r) ∧ IsCache s' ∧ lastD s' = q := by
  obtain ⟨q, hq, hqgt, hqmin, huniq, _⟩ := add_prime_spec h
  have hs' := huniq fuel s' hok
  subst hs'
  obtain ⟨hc, hlast⟩ := isCache_append h hq hqgt hqmin
  exact ⟨q, rfl, hq, hqgt, hqmin, hc, hlast⟩

theorem add_prime_progress {s : List ℕ} (h : IsCache s) :
    ∃ fuel s', add_prime s fuel = .ok s' := by
  obtain ⟨q, _, _, _, _, hrun⟩ := add_prime_spec h
  exact ⟨q, s ++ [q], hrun⟩

end PrimeTools

namespace PrimeTools

theorem fill_till_n_inv : ∀ (fuel : ℕ) {s : List ℕ} (b : ℕ) {s' : List ℕ}, IsCache s →
    fill_till_n fuel s b = .ok s' → IsCache s' ∧ ∃ t, s' = s ++ t := by
  intro fuel
  induction fuel with
  | zero =>
    intro s b s' h hok
    rw [fill_till_n, getLast?_eq_lastD h.ne_nil] at hok
    dsimp only at hok
    by_cases hb : lastD s < b
    · rw [if_pos hb] at hok; cases hok
    · rw [if_neg hb] at hok; cases hok; exact ⟨h, [], by simp⟩
  | succ f ih =>
    intro s b s' h hok
    rw [fill_till_n, getLast?_eq_lastD h.ne_nil] at hok
    dsimp only at hok
    by_cases hb : lastD s < b
    · rw [if_pos hb] at hok
      cases hap : add_prime s f with
      | ok s1 =>
        rw [hap] at hok
        dsimp only at hok
        obtain ⟨q, hs1, _, _, _, hc1, _⟩ := add_prime_char h hap
        obtain ⟨hc', t, ht⟩ := ih b hc1 hok
        exact ⟨hc', [q] ++ t, by rw [ht, hs1, List.append_assoc]⟩
      | panic => rw [hap] at hok; cases hok
      | timeout => rw [hap] at hok; cases hok
    · rw [if_neg hb] at hok; cases hok; exact ⟨h, [], by simp⟩

theorem fill_n_primes_inv : ∀ (fuel : ℕ) {s : List ℕ} (n : ℕ) {s' : List ℕ}, IsCache s →
    fill_n_primes fuel s n = .ok s' → IsCache s' ∧ ∃ t, s' = s ++ t := by
  intro fuel
  induction fuel with
  | zero =>
    intro s n s' h hok
    rw [fill_n_primes] at hok
    by_cases hb : s.length < n
    · rw [if_pos hb] at hok; cases hok
    · rw [if_neg hb] at hok; cases hok; exact ⟨h, [], by simp⟩
  | succ f ih =>
    intro s n s' h hok
    rw [fill_n_primes] at hok
    by_cases hb : s.length < n
    · rw [if_pos hb] at hok
      cases hap : add_prime s f with
      | ok s1 =>
        rw [hap] at hok
        dsimp only at hok
        obtain ⟨q, hs1, _, _, _, hc1, _⟩ := add_prime_char h hap
        obtain ⟨hc', t, ht⟩ := ih n hc1 hok
        exact ⟨hc', [q] ++ t, by rw [ht, hs1, List.append_assoc]⟩
      | panic => rw [hap] at hok; cases hok
      | timeout => rw [hap] at hok; cases hok
    · rw [if_neg hb] at hok; cases hok; exact ⟨h, [], by simp⟩

end PrimeTools

/-- Claim C6: the cache built by `new` is the seed [2, 3] derived from `one`;
it satisfies the prime-cache invariant (strictly increasing, only primes,
contains 2 and 3, no gaps up to its maximum); whenever `add_prime` returns it
has appended exactly the smallest prime greater than the current maximum and
the invariant is preserved; `add_prime` does return for sufficient fuel; and
both growth loops (`fill_till_n`, `fill_n_primes`) preserve the invariant and
only ever append, never removing or modifying an entry. -/
theorem claim_C6_cache_invariant :
    new = [2, 3] ∧ IsCache new ∧
    (∀ (s : List ℕ) (fuel : ℕ) (s' : List ℕ), IsCache s → add_prime s fuel = .ok s' →
      ∃ q, s' = s ++ [q] ∧ Nat.Prime q ∧ lastD s < q ∧
        (∀ r, Nat.Prime r → lastD s < r → q ≤ r) ∧ IsCache s') ∧
    (∀ s : List ℕ, IsCache s → ∃ fuel s', add_prime s fuel = .ok s') ∧
    (∀ (fuel : ℕ) (s : List ℕ) (b : ℕ) (s' : List ℕ), IsCache s →
      fill_till_n fuel s b = .ok s' → IsCache s' ∧ ∃ t, s' = s ++ t) ∧
    (∀ (fuel : ℕ) (s : List ℕ) (n : ℕ) (s' : List ℕ), IsCache s →
      fill_n_primes fuel s n = .ok s' → IsCache s' ∧ ∃ t, s' = s ++ t) := by
  refine ⟨rfl, by decide, ?_, ?_, ?_, ?_⟩
  · intro s fuel s' h hok
    obtain ⟨q, h1, h2, h3, h4, h5, _⟩ := add_prime_char h hok
    exact ⟨q, h1, h2, h3, h4, h5⟩
  · intro s h
    exact add_prime_progress h
  · intro fuel s b s' h hok
    exact fill_till_n_inv fuel b h hok
  · intro fuel s n s' h hok
    exact fill_n_primes_inv fuel n h hok

/-- Witness for C6: on the seed cache, `add_prime` with fuel 3 appends 5, the
smallest prime greater than 3, and the invariant holds afterwards. -/
theorem claim_C6_witness :
    IsCache [2, 3] ∧ add_prime [2, 3] 3 = .ok [2, 3, 5] ∧
    (∃ q, ([2, 3, 5] : List ℕ) = [2, 3] ++ [q] ∧ Nat.Prime q ∧ lastD [2, 3] < q ∧
      (∀ r, Nat.Prime r → lastD [2, 3] < r → q ≤ r) ∧ IsCache [2, 3, 5]) :=
  ⟨by decide, by rfl, claim_C6_cache_invariant.2.2.1 [2, 3] 3 [2, 3, 5] (by decide) (by rfl)⟩

namespace PrimeTools

theorem prodPE_nil : prodPE [] = 1 := rfl

theorem prodPE_cons (pe : ℕ × ℕ) (l : List (ℕ × ℕ)) :
    prodPE (pe :: l) = pe.1 ^ pe.2 * prodPE l := by
  simp [prodPE]

theorem div_loop_ok {p : ℕ} (hp : 2 ≤ p) :
    ∀ (fuel m e m' e' : ℕ), div_loop p m e fuel = .ok (m', e') →
      e ≤ e' ∧ m = p ^ (e' - e) * m' ∧ m' % p ≠ 0 ∧ (1 ≤ m → 1 ≤ m') := by
  intro fuel
  induction fuel with
  | zero => intro m e m' e' hok; cases hok
  | succ f ih =>
    intro m e m' e' hok
    rw [div_loop] at hok
    by_cases hdvd : m % p = 0
    · rw [if_pos hdvd] at hok
      obtain ⟨h1, h2, h3, h4⟩ := ih (m / p) (e + 1) m' e' hok
      have hpd : p ∣ m := Nat.dvd_of_mod_eq_zero hdvd
      have hme : m = p * (m / p) := (Nat.mul_div_cancel' hpd).symm
      refine ⟨by omega, ?_, h3, ?_⟩
      · have hee : e' - (e + 1) + 1 = e' - e := by omega
        rw [hme, h2, ← mul_assoc, ← pow_succ', hee]
      · intro hm1
        refine h4 ?_
        have hpm : p ≤ m := Nat.le_of_dvd (by omega) hpd
        exact (Nat.one_le_div_iff (by omega)).mpr hpm
    · rw [if_neg hdvd] at hok
      cases hok
      exact ⟨le_refl _, by simp, hdvd, fun h => h⟩

theorem noGaps_aux : ∀ (L : List ℕ) (b : ℕ),
    List.Pairwise (· < ·) L → (∀ p ∈ L, Nat.Prime p) →
    (∀ r, Nat.Prime r → b < r → r ≤ lastD L → r ∈ L) →
    (∀ p ∈ L, b < p) → NoGaps b L := by
  intro L
  induction L with
  | nil => intro b _ _ _ _; trivial
  | cons p rest ih =>
    intro b hpw hpr hcomp hgt
    have hpp : Nat.Prime p := hpr p (List.mem_cons_self p rest)
    have hbp : b < p := hgt p (List.mem_cons_self p rest)
    refine ⟨hpp, hbp, ?_, ?_⟩
    · intro r hr hbr hrp
      have hrle : r ≤ lastD (p :: rest) :=
        le_trans (le_of_lt hrp) (all_le_lastD hpw p (List.mem_cons_self p rest))
      rcases List.mem_cons.mp (hcomp r hr hbr hrle) with rfl | hmm
      · omega
      · have := (List.pairwise_cons.mp hpw).1 r hmm
        omega
    · refine ih p (List.pairwise_cons.mp hpw).2
        (fun x hx => hpr x (List.mem_cons_of_mem _ hx)) ?_
        (fun x hx => (List.pairwise_cons.mp hpw).1 x hx)
      intro r hr hpr2 hrle
      have hrle2 : r ≤ lastD (p :: rest) := by
        cases rest with
        | nil =>
          rw [show lastD ([] : List ℕ) = 0 from rfl] at hrle
          have := hr.one_lt
          omega
        | cons b2 t =>
          rw [lastD_cons_cons]
          exact hrle
      rcases List.mem_cons.mp (hcomp r hr (by omega) hrle2) with rfl | hmm
      · omega
      · exact hmm

theorem noGaps_of_cache {s : List ℕ} (h : IsCache s) : NoGaps 1 s :=
  noGaps_aux s 1 h.1 h.2.2.2.1 (fun _ hr _ hrle => h.mem_iff.mpr ⟨hr, hrle⟩)
    (fun p hp => (h.2.2.2.1 p hp).one_lt)

theorem prime_of_factors_gt_sqrt {m : ℕ} (p : ℕ) (h2 : 2 ≤ m)
    (hgt : ∀ r, Nat.Prime r → r ∣ m → p ≤ r) (hsq : Nat.sqrt m < p) : Nat.Prime m := by
  by_contra hnp
  have hmf := Nat.minFac_prime (by omega : m ≠ 1)
  have hsqle : m.minFac * m.minFac ≤ m := by
    have := Nat.minFac_sq_le_self (by omega) hnp
    rwa [pow_two] at this
  have h1 : m.minFac ≤ Nat.sqrt m := Nat.le_sqrt.mpr hsqle
  have h2' := hgt m.minFac hmf (Nat.minFac_dvd m)
  omega

theorem factor_scan_ok :
    ∀ (L : List ℕ) (B fuel m : ℕ) (acc l : List (ℕ × ℕ)),
      NoGaps B L →
      1 ≤ m →
      (∀ r, Nat.Prime r → r ∣ m → B < r) →
      factor_scan fuel m (isqrt m) acc L = .ok l →
      ∃ ext, l = acc ++ ext ∧ prodPE ext = m ∧
        (∀ pe ∈ ext, Nat.Prime pe.1 ∧ 1 ≤ pe.2 ∧ B < pe.1) ∧
        List.Pairwise (fun a b => a.1 < b.1) ext := by
  intro L
  induction L with
  | nil =>
    intro B fuel m acc l _ _ _ hok
    cases hok
  | cons p rest ih =>
    intro B fuel m acc l hng hm hfac hok
    obtain ⟨hp, hBp, hgap, hngr⟩ := hng
    rw [factor_scan.eq_def] at hok
    dsimp only at hok
    by_cases hdvd : m % p = 0
    · rw [if_pos hdvd] at hok
      have hpd : p ∣ m := Nat.dvd_of_mod_eq_zero hdvd
      cases hdl : div_loop p (m / p) 1 fuel with
      | ok r1 =>
        obtain ⟨m1, e1⟩ := r1
        rw [hdl] at hok
        dsimp only at hok
        obtain ⟨he1, heq, hm1p, hm1pos⟩ := div_loop_ok hp.two_le fuel (m / p) 1 m1 e1 hdl
        have hmp1 : 1 ≤ m / p := by
          have hpm : p ≤ m := Nat.le_of_dvd (by omega) hpd
          exact (Nat.one_le_div_iff (by have := hp.two_le; omega)).mpr hpm
        have hm1 : 1 ≤ m1 := hm1pos hmp1
        have hmeq : m = p ^ e1 * m1 := by
          have hme : m = p * (m / p) := (Nat.mul_div_cancel' hpd).symm
          have hee : e1 - 1 + 1 = e1 := by omega
          rw [hme, heq, ← mul_assoc, ← pow_succ', hee]
        have hpnm1 : ¬ p ∣ m1 := fun hd => hm1p (Nat.mod_eq_zero_of_dvd hd)
        have hfac1 : ∀ r, Nat.Prime r → r ∣ m1 → p < r := by
          intro r hr hrd
          have hrm : r ∣ m := hmeq ▸ Dvd.dvd.mul_left hrd (p ^ e1)
          have hBr := hfac r hr hrm
          have hrp : r ≠ p := fun he => hpnm1 (he ▸ hrd)
          by_contra hle
          push_neg at hle
          have : r < p := by omega
          exact hgap r hr hBr this
        by_cases hbreak : isqrt m1 < p
        · rw [if_pos hbreak] at hok
          by_cases hm1e : m1 = 1
          · rw [if_neg (by omega : ¬ m1 ≠ 1)] at hok
            cases hok
            refine ⟨[(p, e1)], rfl, ?_, ?_, List.pairwise_singleton _ _⟩
            · rw [prodPE_cons, prodPE_nil, hmeq, hm1e]
            · intro pe hpe
              rw [List.mem_singleton.mp hpe]
              exact ⟨hp, he1, hBp⟩
          · rw [if_pos hm1e] at hok
            cases hok
            have hm1prime : Nat.Prime m1 := by
              refine prime_of_factors_gt_sqrt p (by omega) ?_ ?_
              · intro r hr hrd
                exact le_of_lt (hfac1 r hr hrd)
              · rw [← isqrt_eq]
                exact hbreak
            have hpm1 : p < m1 := hfac1 m1 hm1prime dvd_rfl
            refine ⟨[(p, e1), (m1, 1)], by rw [List.append_assoc]; rfl, ?_, ?_, ?_⟩
            · rw [prodPE_cons, prodPE_cons, prodPE_nil, hmeq]
              ring
            · intro pe hpe
              rcases List.mem_cons.mp hpe with rfl | hpe2
              · exact ⟨hp, he1, hBp⟩
              · rw [List.mem_singleton.mp hpe2]
                exact ⟨hm1prime, le_refl _, by omega⟩
            · refine List.pairwise_cons.mpr ⟨?_, List.pairwise_singleton _ _⟩
              intro y hy
              rw [List.mem_singleton.mp hy]
              exact hpm1
        · rw [if_neg hbreak] at hok
          obtain ⟨ext1, hl, hprod1, hmem1, hpw1⟩ :=
            ih p fuel m1 (acc ++ [(p, e1)]) l hngr hm1 hfac1 hok
          refine ⟨(p, e1) :: ext1, ?_, ?_, ?_, ?_⟩
          · rw [hl, List.append_assoc]
            rfl
          · rw [prodPE_cons, hprod1, hmeq]
          · intro pe hpe
            rcases List.mem_cons.mp hpe with rfl | hpe2
            · exact ⟨hp, he1, hBp⟩
            · obtain ⟨ha, hb, hc⟩ := hmem1 pe hpe2
              exact ⟨ha, hb, by omega⟩
          · refine List.pairwise_cons.mpr ⟨?_, hpw1⟩
            intro y hy
            exact (hmem1 y hy).2.2
      | panic =>
        rw [hdl] at hok
        cases hok
      | timeout =>
        rw [hdl] at hok
        cases hok
    · rw [if_neg hdvd] at hok
      have hpnm : ¬ p ∣ m := fun hd => hdvd (Nat.mod_eq_zero_of_dvd hd)
      have hfac' : ∀ r, Nat.Prime r → r ∣ m → p < r := by
        intro r hr hrd
        have hBr := hfac r hr hrd
        have hrp : r ≠ p := fun he => hpnm (he ▸ hrd)
        by_contra hle
        push_neg at hle
        exact hgap r hr hBr (by omega)
      by_cases hbreak : isqrt m < p
      · rw [if_pos hbreak] at hok
        by_cases hme : m = 1
        · rw [if_neg (by omega : ¬ m ≠ 1)] at hok
          cases hok
          refine ⟨[], by simp, ?_, ?_, List.Pairwise.nil⟩
          · rw [prodPE_nil, hme]
          · intro pe hpe
            cases hpe
        · rw [if_pos hme] at hok
          cases hok
          have hmprime : Nat.Prime m := by
            refine prime_of_factors_gt_sqrt p (by omega) ?_ ?_
            · intro r hr hrd
              exact le_of_lt (hfac' r hr hrd)
            · rw [← isqrt_eq]
              exact hbreak
          refine ⟨[(m, 1)], rfl, ?_, ?_, List.pairwise_singleton _ _⟩
          · rw [prodPE_cons, prodPE_nil]
            ring
          · intro pe hpe
            rw [List.mem_singleton.mp hpe]
            exact ⟨hmprime, le_refl _, hfac m hmprime dvd_rfl⟩
      · rw [if_neg hbreak] at hok
        obtain ⟨ext1, hl, hprod1, hmem1, hpw1⟩ := ih p fuel m acc l hngr hm hfac' hok
        refine ⟨ext1, hl, hprod1, ?_, hpw1⟩
        intro pe hpe
        obtain ⟨ha, hb, hc⟩ := hmem1 pe hpe
        exact ⟨ha, hb, by omega⟩

end PrimeTools

namespace PrimeTools

theorem fill_till_new_le3 (fuel : ℕ) {b : ℕ} (hb : b ≤ 3) : fill_till_n fuel new b = .ok new := by
  have h2 : ¬ ((3 : ℕ) < b) := by omega
  cases fuel with
  | zero =>
    rw [fill_till_n, show new.getLast? = some 3 from rfl]
    dsimp only
    rw [if_neg h2]
  | succ f =>
    rw [fill_till_n, show new.getLast? = some 3 from rfl]
    dsimp only
    rw [if_neg h2]

theorem pf_13_panic (fuel : ℕ) : prime_factorization fuel new 13 = .panic := by
  rw [prime_factorization, show isqrt 13 = 3 from rfl, fill_till_new_le3 fuel (by omega)]
  rfl

end PrimeTools

/-- Claim C5 counterexample: the claim quantifies over every n ≥ 2, but at
n = 13 on a fresh instance `prime_factorization` panics (out-of-bounds cache
read) for every fuel, so no mapping whose product is 13 is ever returned. -/
theorem claim_C5_counterexample : ¬ ∃ (fuel : ℕ) (l : List (ℕ × ℕ)) (s' : List ℕ),
    prime_factorization fuel new 13 = .ok (l, s') ∧ prodPE l = 13 := by
  rintro ⟨fuel, l, s', hok, -⟩
  rw [pf_13_panic fuel] at hok
  cases hok

/-- Core soundness of the factorization scan, for every n ≥ 1: whenever
`prime_factorization` returns, the entries multiply back to n, keys are prime
and strictly ascending, exponents positive. -/
theorem prime_factorization_props (fuel : ℕ) (s : List ℕ) (n : ℕ)
    (l : List (ℕ × ℕ)) (s' : List ℕ) (hc : IsCache s) (hn : 1 ≤ n)
    (hok : prime_factorization fuel s n = .ok (l, s')) :
    prodPE l = n ∧ (∀ pe ∈ l, Nat.Prime pe.1 ∧ 1 ≤ pe.2) ∧
      List.Pairwise (fun a b => a.1 < b.1) l := by
  rw [prime_factorization] at hok
  cases hfill : fill_till_n fuel s (isqrt n) with
  | ok s1 =>
    rw [hfill] at hok
    dsimp only at hok
    cases hscan : factor_scan fuel n (isqrt n) [] s1 with
    | ok l0 =>
      rw [hscan] at hok
      dsimp only at hok
      rw [Res.ok.injEq, Prod.mk.injEq] at hok
      obtain ⟨hl, hs⟩ := hok
      subst hl
      subst hs
      obtain ⟨hc1, -⟩ := fill_till_n_inv fuel (isqrt n) hc hfill
      obtain ⟨ext, hext, hprod, hmem, hpw⟩ :=
        factor_scan_ok s1 1 fuel n [] l0 (noGaps_of_cache hc1) (by omega)
          (fun _ hr _ => hr.one_lt) hscan
      rw [List.nil_append] at hext
      subst hext
      exact ⟨hprod, fun pe hpe => ⟨(hmem pe hpe).1, (hmem pe hpe).2.1⟩, hpw⟩
    | panic => rw [hscan] at hok; cases hok
    | timeout => rw [hscan] at hok; cases hok
  | panic => rw [hfill] at hok; cases hok
  | timeout => rw [hfill] at hok; cases hok

/-- Claim C5 (amended): for every n ≥ 2 and every cache state satisfying the
invariant, whenever `prime_factorization(n)` returns a mapping (rather than
panicking on an out-of-bounds cache read), the product of p^e over its entries
equals n exactly, every key is prime, the keys are strictly ascending (hence
distinct), and every recorded exponent is positive. -/
theorem claim_C5_factorization_product (fuel : ℕ) (s : List ℕ) (n : ℕ)
    (l : List (ℕ × ℕ)) (s' : List ℕ) (hc : IsCache s) (hn : 2 ≤ n)
    (hok : prime_factorization fuel s n = .ok (l, s')) :
    prodPE l = n ∧ (∀ pe ∈ l, Nat.Prime pe.1 ∧ 1 ≤ pe.2) ∧
      List.Pairwise (fun a b => a.1 < b.1) l :=
  prime_factorization_props fuel s n l s' hc (by omega) hok

/-- Witness for the amended C5 at n = 12 on a fresh instance. -/
theorem claim_C5_witness :
    IsCache new ∧ prime_factorization 10 new 12 = .ok ([(2, 2), (3, 1)], new) ∧
      (prodPE [(2, 2), (3, 1)] = 12 ∧
        (∀ pe ∈ ([(2, 2), (3, 1)] : List (ℕ × ℕ)), Nat.Prime pe.1 ∧ 1 ≤ pe.2) ∧
        List.Pairwise (fun a b => a.1 < b.1) [(2, 2), (3, 1)]) :=
  ⟨by decide, by rfl,
    claim_C5_factorization_product 10 new 12 [(2, 2), (3, 1)] new (by decide)
      (by norm_num) (by rfl)⟩

namespace PrimeTools

theorem tauOf_nil : tauOf [] = 1 := rfl

theorem tauOf_cons (pe : ℕ × ℕ) (l : List (ℕ × ℕ)) :
    tauOf (pe :: l) = (pe.2 + 1) * tauOf l := by
  simp [tauOf]

theorem tauOf_pos (l : List (ℕ × ℕ)) : 0 < tauOf l := by
  induction l with
  | nil => exact Nat.one_pos
  | cons pe rest ih =>
    rw [tauOf_cons]
    exact Nat.mul_pos (Nat.succ_pos _) ih

theorem digitsMR_zero (l : List (ℕ × ℕ)) :
    digitsMR l 0 = l.map fun pe => (pe.1, pe.2, 0) := by
  induction l with
  | nil => rfl
  | cons pe rest ih =>
    rw [digitsMR, Nat.zero_mod, Nat.zero_div, ih]
    rfl

theorem factorOf_zero (l : List (ℕ × ℕ)) : factorOf l 0 = 1 := by
  induction l with
  | nil => rfl
  | cons pe rest ih =>
    rw [factorOf, Nat.zero_mod, Nat.zero_div, ih, pow_zero, one_mul]

theorem digitsMR_tau (l : List (ℕ × ℕ)) : digitsMR l (tauOf l) = digitsMR l 0 := by
  induction l with
  | nil => rfl
  | cons pe rest ih =>
    rw [digitsMR, digitsMR, tauOf_cons, Nat.mul_mod_right, Nat.zero_mod,
      Nat.mul_div_cancel_left _ (Nat.succ_pos pe.2), Nat.zero_div, ih]

theorem factorOf_tau (l : List (ℕ × ℕ)) : factorOf l (tauOf l) = 1 := by
  induction l with
  | nil => rfl
  | cons pe rest ih =>
    rw [factorOf, tauOf_cons, Nat.mul_mod_right,
      Nat.mul_div_cancel_left _ (Nat.succ_pos pe.2), ih, pow_zero, one_mul]

theorem factorOf_eq_one_iff (l : List (ℕ × ℕ)) (hl : ∀ pe ∈ l, 2 ≤ pe.1) :
    ∀ v < tauOf l, (factorOf l v = 1 ↔ v = 0) := by
  induction l with
  | nil =>
    intro v hv
    rw [tauOf_nil] at hv
    constructor
    · intro _; omega
    · intro _; rfl
  | cons pe rest ih =>
    intro v hv
    rw [tauOf_cons] at hv
    have hp2 : 2 ≤ pe.1 := hl pe (List.mem_cons_self _ _)
    have hw : v / (pe.2 + 1) < tauOf rest := by
      rw [Nat.div_lt_iff_lt_mul (Nat.succ_pos pe.2)]
      exact Nat.mul_comm (pe.2 + 1) (tauOf rest) ▸ hv
    have hvm := Nat.div_add_mod v (pe.2 + 1)
    constructor
    · intro h1
      rw [factorOf] at h1
      have hpow : pe.1 ^ (v % (pe.2 + 1)) = 1 := by
        have hd : pe.1 ^ (v % (pe.2 + 1)) ∣ 1 := ⟨factorOf rest (v / (pe.2 + 1)), h1.symm⟩
        exact Nat.dvd_one.mp hd
      have hc0 : v % (pe.2 + 1) = 0 := by
        by_contra hc
        have := Nat.one_lt_pow hc (by omega : 1 < pe.1)
        omega
      have hrest1 : factorOf rest (v / (pe.2 + 1)) = 1 := by
        rw [hpow, one_mul] at h1
        exact h1
      have hw0 := (ih (fun x hx => hl x (List.mem_cons_of_mem _ hx)) _ hw).mp hrest1
      rw [hw0, Nat.mul_zero] at hvm
      omega
    · intro hv0
      rw [hv0, factorOf_zero]

theorem odo_step_digits (l : List (ℕ × ℕ)) (hl : ∀ pe ∈ l, 2 ≤ pe.1) :
    ∀ v < tauOf l,
      odo_step (digitsMR l v) (factorOf l v) = (digitsMR l (v + 1), factorOf l (v + 1)) := by
  induction l with
  | nil =>
    intro v hv
    rw [tauOf_nil] at hv
    rw [digitsMR, digitsMR, factorOf, factorOf, odo_step]
  | cons pe rest ih =>
    intro v hv
    obtain ⟨p, e⟩ := pe
    have hp2 : 2 ≤ p := hl (p, e) (List.mem_cons_self _ _)
    rw [tauOf_cons] at hv
    have hv' : v < (e + 1) * tauOf rest := hv
    have hvm := Nat.div_add_mod v (e + 1)
    have hcl : v % (e + 1) < e + 1 := Nat.mod_lt v (Nat.succ_pos e)
    rw [digitsMR, factorOf, odo_step]
    dsimp only
    by_cases hc : v % (e + 1) < e
    · rw [if_pos hc]
      have hsplit : v + 1 = (v % (e + 1) + 1) + (e + 1) * (v / (e + 1)) := by omega
      have hmod : (v + 1) % (e + 1) = v % (e + 1) + 1 := by
        rw [hsplit, Nat.add_mul_mod_self_left, Nat.mod_eq_of_lt (by omega)]
      have hdiv : (v + 1) / (e + 1) = v / (e + 1) := by
        rw [hsplit, Nat.add_mul_div_left _ _ (Nat.succ_pos e),
          Nat.div_eq_of_lt (by omega), Nat.zero_add]
      rw [digitsMR, factorOf, hmod, hdiv]
      rw [Prod.mk.injEq]
      refine ⟨rfl, ?_⟩
      dsimp only
      rw [pow_succ]
      ring
    · have hce : v % (e + 1) = e := by omega
      rw [if_neg hc]
      have hdivex : p ^ (v % (e + 1)) * factorOf rest (v / (e + 1)) / p ^ e =
          factorOf rest (v / (e + 1)) := by
        rw [hce, Nat.mul_div_cancel_left _ (Nat.pos_pow_of_pos e (by omega))]
      have hwlt : v / (e + 1) < tauOf rest := by
        rw [Nat.div_lt_iff_lt_mul (Nat.succ_pos e)]
        exact Nat.mul_comm (e + 1) (tauOf rest) ▸ hv'
      have hrec := ih (fun x hx => hl x (List.mem_cons_of_mem _ hx)) _ hwlt
      have hms : (e + 1) * (v / (e + 1) + 1) = (e + 1) * (v / (e + 1)) + (e + 1) :=
        Nat.mul_succ _ _
      have hsplit : v + 1 = (e + 1) * (v / (e + 1) + 1) := by omega
      have hmod : (v + 1) % (e + 1) = 0 := by
        rw [hsplit, Nat.mul_mod_right]
      have hdiv : (v + 1) / (e + 1) = v / (e + 1) + 1 := by
        rw [hsplit, Nat.mul_div_cancel_left _ (Nat.succ_pos e)]
      rw [hdivex, hrec, digitsMR, factorOf, hmod, hdiv]
      rw [Prod.mk.injEq]
      refine ⟨rfl, ?_⟩
      dsimp only
      rw [pow_zero, one_mul]

theorem odo_loop_char (l : List (ℕ × ℕ)) (hl : ∀ pe ∈ l, 2 ≤ pe.1) :
    ∀ (fuel j : ℕ) (acc S : Finset ℕ), j < tauOf l →
      odo_loop fuel (digitsMR l j) (factorOf l j) acc = .ok S →
      S = acc ∪ Finset.image (fun v => factorOf l v) (Finset.Ico j (tauOf l)) := by
  intro fuel
  induction fuel with
  | zero =>
    intro j acc S hj hok
    cases hok
  | succ f ih =>
    intro j acc S hj hok
    rw [odo_loop] at hok
    rw [odo_step_digits l hl j hj] at hok
    dsimp only at hok
    by_cases hend : factorOf l (j + 1) = 1
    · rw [if_pos hend] at hok
      have hj1 : j + 1 = tauOf l := by
        by_contra hne
        have hlt : j + 1 < tauOf l := by omega
        have := (factorOf_eq_one_iff l hl (j + 1) hlt).mp hend
        omega
      rw [Res.ok.injEq] at hok
      subst hok
      have hico : Finset.Ico j (tauOf l) = {j} := by
        refine Finset.ext fun x => ?_
        simp only [Finset.mem_Ico, Finset.mem_singleton]
        omega
      rw [hico, Finset.image_singleton, Finset.union_comm, ← Finset.insert_eq]
    · rw [if_neg hend] at hok
      have hj1 : j + 1 < tauOf l := by
        rcases Nat.lt_or_ge (j + 1) (tauOf l) with h | h
        · exact h
        · have : j + 1 = tauOf l := by omega
          rw [this, factorOf_tau] at hend
          exact absurd rfl hend
      have hrec := ih (j + 1) (insert (factorOf l j) acc) S hj1 hok
      rw [hrec]
      have hico : Finset.Ico j (tauOf l) = insert j (Finset.Ico (j + 1) (tauOf l)) := by
        refine Finset.ext fun x => ?_
        simp only [Finset.mem_Ico, Finset.mem_insert]
        omega
      rw [hico, Finset.image_insert, Finset.insert_union, Finset.union_insert]

end PrimeTools

namespace PrimeTools

theorem factorOf_dvd_prodPE (l : List (ℕ × ℕ)) : ∀ v, factorOf l v ∣ prodPE l := by
  induction l with
  | nil => intro v; exact dvd_refl 1
  | cons pe rest ih =>
    intro v
    rw [factorOf, prodPE_cons]
    exact Nat.mul_dvd_mul
      (pow_dvd_pow pe.1 (by
        have h := Nat.mod_lt v (y := pe.2 + 1) (by omega)
        omega))
      (ih _)

theorem prime_not_dvd_prodPE {q : ℕ} (hq : Nat.Prime q) :
    ∀ (l : List (ℕ × ℕ)), (∀ pe ∈ l, q < pe.1) → (∀ pe ∈ l, Nat.Prime pe.1) →
      ¬ q ∣ prodPE l := by
  intro l
  induction l with
  | nil =>
    intro _ _ hdvd
    rw [prodPE_nil] at hdvd
    exact hq.one_lt.ne' (Nat.dvd_one.mp hdvd)
  | cons pe rest ih =>
    intro hgt hpr hdvd
    rw [prodPE_cons] at hdvd
    rcases (Nat.Prime.dvd_mul hq).mp hdvd with h | h
    · have := (Nat.prime_dvd_prime_iff_eq hq (hpr pe (List.mem_cons_self _ _))).mp
        (hq.dvd_of_dvd_pow h)
      have := hgt pe (List.mem_cons_self _ _)
      omega
    · exact ih (fun x hx => hgt x (List.mem_cons_of_mem _ hx))
        (fun x hx => hpr x (List.mem_cons_of_mem _ hx)) h

theorem pow_mul_cancel_aux {p : ℕ} (hp : 2 ≤ p) :
    ∀ {c1 c2 d1 d2 : ℕ}, c1 ≤ c2 → p ^ c1 * d1 = p ^ c2 * d2 → ¬ p ∣ d1 →
      c1 = c2 ∧ d1 = d2 := by
  intro c1 c2 d1 d2 hle heq hnd
  have hsplit : p ^ c2 = p ^ c1 * p ^ (c2 - c1) := by
    rw [← pow_add]
    congr 1
    omega
  rw [hsplit, mul_assoc] at heq
  have hppos : 0 < p ^ c1 := Nat.pos_pow_of_pos c1 (by omega)
  have hd : d1 = p ^ (c2 - c1) * d2 := Nat.eq_of_mul_eq_mul_left hppos heq
  by_cases hc : c2 - c1 = 0
  · refine ⟨by omega, ?_⟩
    rw [hd, hc, pow_zero, one_mul]
  · exfalso
    refine hnd ?_
    rw [hd]
    exact Dvd.dvd.mul_right (dvd_pow_self p hc) d2

theorem pow_mul_inj {p : ℕ} (hp : 2 ≤ p) {c1 c2 d1 d2 : ℕ}
    (heq : p ^ c1 * d1 = p ^ c2 * d2) (hnd1 : ¬ p ∣ d1) (hnd2 : ¬ p ∣ d2) :
    c1 = c2 ∧ d1 = d2 := by
  rcases le_total c1 c2 with h | h
  · exact pow_mul_cancel_aux hp h heq hnd1
  · obtain ⟨h1, h2⟩ := pow_mul_cancel_aux hp h heq.symm hnd2
    exact ⟨h1.symm, h2.symm⟩

theorem factorOf_inj (l : List (ℕ × ℕ)) (hpr : ∀ pe ∈ l, Nat.Prime pe.1)
    (hpw : List.Pairwise (fun a b => a.1 < b.1) l) :
    ∀ v, v < tauOf l → ∀ u, u < tauOf l → factorOf l v = factorOf l u → v = u := by
  induction l with
  | nil =>
    intro v hv u hu _
    rw [tauOf_nil] at hv hu
    omega
  | cons pe rest ih =>
    intro v hv u hu heq
    obtain ⟨p, e⟩ := pe
    have hp : Nat.Prime p := hpr (p, e) (List.mem_cons_self _ _)
    have hnotdvd : ¬ p ∣ prodPE rest :=
      prime_not_dvd_prodPE hp rest (fun x hx => (List.pairwise_cons.mp hpw).1 x hx)
        (fun x hx => hpr x (List.mem_cons_of_mem _ hx))
    rw [tauOf_cons] at hv hu
    have hv' : v < (e + 1) * tauOf rest := hv
    have hu' : u < (e + 1) * tauOf rest := hu
    have hwv : v / (e + 1) < tauOf rest := by
      rw [Nat.div_lt_iff_lt_mul (Nat.succ_pos e)]
      exact Nat.mul_comm (e + 1) (tauOf rest) ▸ hv'
    have hwu : u / (e + 1) < tauOf rest := by
      rw [Nat.div_lt_iff_lt_mul (Nat.succ_pos e)]
      exact Nat.mul_comm (e + 1) (tauOf rest) ▸ hu'
    rw [factorOf, factorOf] at heq
    dsimp only at heq
    have hnd1 : ¬ p ∣ factorOf rest (v / (e + 1)) := fun hd =>
      hnotdvd (dvd_trans hd (factorOf_dvd_prodPE rest _))
    have hnd2 : ¬ p ∣ factorOf rest (u / (e + 1)) := fun hd =>
      hnotdvd (dvd_trans hd (factorOf_dvd_prodPE rest _))
    obtain ⟨hc, hrest⟩ := pow_mul_inj hp.two_le heq hnd1 hnd2
    have hw := ih (fun x hx => hpr x (List.mem_cons_of_mem _ hx))
      (List.pairwise_cons.mp hpw).2 _ hwv _ hwu hrest
    have hv2 := Nat.div_add_mod v (e + 1)
    have hu2 := Nat.div_add_mod u (e + 1)
    rw [hw, hc] at hv2
    omega

theorem mem_image_of_dvd (l : List (ℕ × ℕ)) (hpr : ∀ pe ∈ l, Nat.Prime pe.1) :
    ∀ d, d ∣ prodPE l →
      d ∈ Finset.image (fun v => factorOf l v) (Finset.range (tauOf l)) := by
  induction l with
  | nil =>
    intro d hd
    rw [prodPE_nil] at hd
    rw [Nat.dvd_one.mp hd]
    exact Finset.mem_image.mpr ⟨0, Finset.mem_range.mpr (tauOf_pos []), rfl⟩
  | cons pe rest ih =>
    intro d hd
    obtain ⟨p, e⟩ := pe
    have hp : Nat.Prime p := hpr (p, e) (List.mem_cons_self _ _)
    rw [prodPE_cons] at hd
    obtain ⟨y, z, hy, hz, hyz⟩ := Nat.dvd_mul.mp hd
    obtain ⟨c, hce, hyc⟩ := (Nat.dvd_prime_pow hp).mp hy
    have hzmem := ih (fun x hx => hpr x (List.mem_cons_of_mem _ hx)) z hz
    obtain ⟨w, hwr, hwz⟩ := Finset.mem_image.mp hzmem
    rw [Finset.mem_range] at hwr
    refine Finset.mem_image.mpr ⟨c + (e + 1) * w, ?_, ?_⟩
    · rw [Finset.mem_range, tauOf_cons]
      dsimp only
      have hms : (e + 1) * (w + 1) = (e + 1) * w + (e + 1) := Nat.mul_succ _ _
      have hle : (e + 1) * (w + 1) ≤ (e + 1) * tauOf rest :=
        Nat.mul_le_mul_left _ (by omega)
      omega
    · rw [factorOf]
      dsimp only
      have hmod : (c + (e + 1) * w) % (e + 1) = c := by
        rw [Nat.add_mul_mod_self_left, Nat.mod_eq_of_lt (by omega)]
      have hdiv : (c + (e + 1) * w) / (e + 1) = w := by
        rw [Nat.add_mul_div_left _ _ (Nat.succ_pos e), Nat.div_eq_of_lt (by omega),
          Nat.zero_add]
      rw [hmod, hdiv, hwz, ← hyc, hyz]

theorem dvd_of_mem_image (l : List (ℕ × ℕ)) {d : ℕ}
    (hd : d ∈ Finset.image (fun v => factorOf l v) (Finset.range (tauOf l))) :
    d ∣ prodPE l := by
  obtain ⟨v, _, hv⟩ := Finset.mem_image.mp hd
  rw [← hv]
  exact factorOf_dvd_prodPE l v

end PrimeTools

namespace PrimeTools

theorem sum_factorOf (l : List (ℕ × ℕ)) :
    ∑ v ∈ Finset.range (tauOf l), factorOf l v =
      (l.map fun pe => ∑ c ∈ Finset.range (pe.2 + 1), pe.1 ^ c).prod := by
  induction l with
  | nil =>
    rw [tauOf_nil]
    simp [factorOf]
  | cons pe rest ih =>
    obtain ⟨p, e⟩ := pe
    rw [tauOf_cons, List.map_cons, List.prod_cons]
    dsimp only
    have hreindex :
        ∑ v ∈ Finset.range ((e + 1) * tauOf rest), factorOf ((p, e) :: rest) v =
          ∑ cw ∈ Finset.range (e + 1) ×ˢ Finset.range (tauOf rest),
            p ^ cw.1 * factorOf rest cw.2 := by
      refine Finset.sum_nbij' (fun v => (v % (e + 1), v / (e + 1)))
        (fun cw => cw.1 + (e + 1) * cw.2) ?_ ?_ ?_ ?_ ?_
      · intro v hv
        rw [Finset.mem_range] at hv
        rw [Finset.mem_product, Finset.mem_range, Finset.mem_range]
        refine ⟨Nat.mod_lt v (by omega), ?_⟩
        rw [Nat.div_lt_iff_lt_mul (Nat.succ_pos e)]
        exact Nat.mul_comm (e + 1) (tauOf rest) ▸ hv
      · intro cw hcw
        rw [Finset.mem_product, Finset.mem_range, Finset.mem_range] at hcw
        rw [Finset.mem_range]
        dsimp only
        have hms : (e + 1) * (cw.2 + 1) = (e + 1) * cw.2 + (e + 1) := Nat.mul_succ _ _
        have hle : (e + 1) * (cw.2 + 1) ≤ (e + 1) * tauOf rest :=
          Nat.mul_le_mul_left _ (by omega)
        omega
      · intro v _
        dsimp only
        have := Nat.div_add_mod v (e + 1)
        omega
      · intro cw hcw
        rw [Finset.mem_product, Finset.mem_range, Finset.mem_range] at hcw
        have hmod : (cw.1 + (e + 1) * cw.2) % (e + 1) = cw.1 := by
          rw [Nat.add_mul_mod_self_left, Nat.mod_eq_of_lt hcw.1]
        have hdiv : (cw.1 + (e + 1) * cw.2) / (e + 1) = cw.2 := by
          rw [Nat.add_mul_div_left _ _ (Nat.succ_pos e), Nat.div_eq_of_lt hcw.1,
            Nat.zero_add]
        rw [Prod.mk.injEq]
        exact ⟨hmod, hdiv⟩
      · intro v _
        rw [factorOf]
    rw [hreindex, Finset.sum_product, ← ih]
    rw [Finset.sum_mul]
    refine Finset.sum_congr rfl ?_
    intro c _
    rw [Finset.mul_sum]

theorem geom_mul {p : ℕ} (hp : 2 ≤ p) (e : ℕ) :
    (p - 1) * ∑ c ∈ Finset.range (e + 1), p ^ c = p ^ (e + 1) - 1 := by
  induction e with
  | zero => simp
  | succ e ih =>
    rw [Finset.sum_range_succ, Nat.mul_add, ih]
    have h1 : (p - 1) * p ^ (e + 1) = p * p ^ (e + 1) - p ^ (e + 1) := by
      rw [Nat.sub_mul, Nat.one_mul]
    have h2 : p * p ^ (e + 1) = p ^ (e + 1 + 1) := (pow_succ' p (e + 1)).symm
    have h3 : 1 ≤ p ^ (e + 1) := Nat.one_le_pow _ _ (by omega)
    have h4 : p ^ (e + 1) ≤ p ^ (e + 1 + 1) := Nat.pow_le_pow_right (by omega) (by omega)
    rw [h1, h2]
    omega

theorem geom_dvd {p : ℕ} (hp : 2 ≤ p) (e : ℕ) : (p - 1) ∣ (p ^ (e + 1) - 1) :=
  ⟨∑ c ∈ Finset.range (e + 1), p ^ c, (geom_mul hp e).symm⟩

theorem geom_div {p : ℕ} (hp : 2 ≤ p) (e : ℕ) :
    (p ^ (e + 1) - 1) / (p - 1) = ∑ c ∈ Finset.range (e + 1), p ^ c := by
  rw [← geom_mul hp e, Nat.mul_div_cancel_left _ (by omega : 0 < p - 1)]

theorem factor_sum_fold_gen :
    ∀ (l : List (ℕ × ℕ)) (a : ℕ), (∀ pe ∈ l, 2 ≤ pe.1) →
      List.foldl (fun sum pe => sum * (pe.1 ^ (pe.2 + 1) - 1) / (pe.1 - 1)) a l =
        a * (l.map fun pe => ∑ c ∈ Finset.range (pe.2 + 1), pe.1 ^ c).prod := by
  intro l
  induction l with
  | nil =>
    intro a _
    simp
  | cons pe rest ih =>
    intro a hl
    have hp : 2 ≤ pe.1 := hl pe (List.mem_cons_self _ _)
    rw [List.foldl_cons, ih _ (fun x hx => hl x (List.mem_cons_of_mem _ hx)),
      List.map_cons, List.prod_cons]
    have hstep : a * (pe.1 ^ (pe.2 + 1) - 1) / (pe.1 - 1) =
        a * ∑ c ∈ Finset.range (pe.2 + 1), pe.1 ^ c := by
      rw [Nat.mul_div_assoc a (geom_dvd hp pe.2), geom_div hp]
    rw [hstep, mul_assoc]

theorem factor_count_fold_gen :
    ∀ (l : List (ℕ × ℕ)) (a : ℕ),
      List.foldl (fun count pe => count * (pe.2 + 1)) a l = a * tauOf l := by
  intro l
  induction l with
  | nil =>
    intro a
    rw [List.foldl_nil, tauOf_nil, Nat.mul_one]
  | cons pe rest ih =>
    intro a
    rw [List.foldl_cons, ih, tauOf_cons]
    ring

theorem factor_sum_fold_eq (l : List (ℕ × ℕ)) (hl : ∀ pe ∈ l, 2 ≤ pe.1) :
    factor_sum_fold l = ∑ v ∈ Finset.range (tauOf l), factorOf l v := by
  rw [factor_sum_fold, factor_sum_fold_gen l 1 hl, Nat.one_mul, sum_factorOf]

theorem factor_count_fold_eq (l : List (ℕ × ℕ)) : factor_count_fold l = tauOf l := by
  rw [factor_count_fold, factor_count_fold_gen l 1, Nat.one_mul]

end PrimeTools

namespace PrimeTools

theorem factors_unfold (fuel : ℕ) (s : List ℕ) (n : ℕ) (S : Finset ℕ) (s' : List ℕ)
    (hok : factors fuel s n = .ok (S, s')) :
    ∃ l, prime_factorization fuel s n = .ok (l, s') ∧
      odo_loop fuel (l.map fun pe => (pe.1, pe.2, 0)) 1 ∅ = .ok S := by
  rw [factors] at hok
  cases hpf : prime_factorization fuel s n with
  | ok pr =>
    obtain ⟨l, s1⟩ := pr
    rw [hpf] at hok
    dsimp only at hok
    cases hodo : odo_loop fuel (l.map fun pe => (pe.1, pe.2, 0)) 1 ∅ with
    | ok S0 =>
      rw [hodo] at hok
      dsimp only at hok
      rw [Res.ok.injEq, Prod.mk.injEq] at hok
      obtain ⟨hS, hs⟩ := hok
      subst hS
      subst hs
      exact ⟨l, rfl, hodo⟩
    | panic => rw [hodo] at hok; cases hok
    | timeout => rw [hodo] at hok; cases hok
  | panic => rw [hpf] at hok; cases hok
  | timeout => rw [hpf] at hok; cases hok

theorem factors_image (fuel : ℕ) (s : List ℕ) (n : ℕ) (S : Finset ℕ) (s' : List ℕ)
    (hc : IsCache s) (hn : 1 ≤ n) (hok : factors fuel s n = .ok (S, s')) :
    ∃ l, prime_factorization fuel s n = .ok (l, s') ∧ prodPE l = n ∧
      (∀ pe ∈ l, Nat.Prime pe.1 ∧ 1 ≤ pe.2) ∧ List.Pairwise (fun a b => a.1 < b.1) l ∧
      S = Finset.image (fun v => factorOf l v) (Finset.range (tauOf l)) := by
  obtain ⟨l, hpf, hodo⟩ := factors_unfold fuel s n S s' hok
  obtain ⟨hprod, hprim, hpw⟩ := prime_factorization_props fuel s n l s' hc hn hpf
  have hl2 : ∀ pe ∈ l, 2 ≤ pe.1 := fun pe hpe => (hprim pe hpe).1.two_le
  rw [← digitsMR_zero l] at hodo
  rw [show (1 : ℕ) = factorOf l 0 from (factorOf_zero l).symm] at hodo
  have hchar := odo_loop_char l hl2 fuel 0 ∅ S (tauOf_pos l) hodo
  refine ⟨l, hpf, hprod, hprim, hpw, ?_⟩
  rw [hchar, Finset.empty_union]
  congr 1
  rw [Finset.range_eq_Ico]

end PrimeTools

/-- Claim C7 counterexample: the claim quantifies over every n ≥ 1, but at
n = 29 on a fresh instance `factors` never returns a set: depending on fuel it
either times out while growing the cache or panics on the out-of-bounds scan
read (the cache tops out at 5 = isqrt 29). -/
theorem claim_C7_counterexample : ¬ ∃ (fuel : ℕ) (S : Finset ℕ) (s' : List ℕ),
    factors fuel new 29 = .ok (S, s') := by
  have hfill5 : ∀ f : ℕ, fill_till_n f [2, 3, 5] 5 = .ok [2, 3, 5] := by
    intro f
    cases f <;> rfl
  have hcases : ∀ fuel : ℕ, prime_factorization fuel new 29 = .panic ∨
      prime_factorization fuel new 29 = .timeout := by
    intro fuel
    match fuel with
    | 0 => right; rfl
    | 1 => right; rfl
    | (g + 2) =>
      left
      have hadd : add_prime new (g + 1) = .ok [2, 3, 5] := rfl
      rw [prime_factorization, show isqrt 29 = 5 from rfl, fill_till_n,
        show new.getLast? = some 3 from rfl]
      dsimp only
      rw [if_pos (by omega : (3 : ℕ) < 5), hadd]
      dsimp only
      rw [hfill5 (g + 1)]
      dsimp only
      rw [show factor_scan (g + 2) 29 5 [] [2, 3, 5] = .panic from rfl]
  rintro ⟨fuel, S, s', hok⟩
  rw [factors] at hok
  rcases hcases fuel with h | h <;> rw [h] at hok <;> cases hok

/-- Claim C7 (amended): for every n ≥ 1 and every invariant-satisfying cache
state, whenever `factors(n)` returns a set (rather than panicking or timing
out), that set is exactly the set of positive divisors of n: it contains 1 and
n, and a value belongs to it iff it is positive and divides n. -/
theorem claim_C7_divisor_set (fuel : ℕ) (s : List ℕ) (n : ℕ) (S : Finset ℕ)
    (s' : List ℕ) (hc : IsCache s) (hn : 1 ≤ n)
    (hok : factors fuel s n = .ok (S, s')) :
    1 ∈ S ∧ n ∈ S ∧ ∀ d : ℕ, d ∈ S ↔ (0 < d ∧ d ∣ n) := by
  obtain ⟨l, hpf, hprod, hprim, hpw, hS⟩ := factors_image fuel s n S s' hc hn hok
  have hpr : ∀ pe ∈ l, Nat.Prime pe.1 := fun pe hpe => (hprim pe hpe).1
  have hiff : ∀ d : ℕ, d ∈ S ↔ d ∣ n := by
    intro d
    rw [hS]
    constructor
    · intro hd
      rw [← hprod]
      exact dvd_of_mem_image l hd
    · intro hd
      rw [← hprod] at hd
      exact mem_image_of_dvd l hpr d hd
  refine ⟨(hiff 1).mpr (one_dvd n), (hiff n).mpr dvd_rfl, ?_⟩
  intro d
  rw [hiff d]
  constructor
  · intro hd
    exact ⟨Nat.pos_of_dvd_of_pos hd (by omega), hd⟩
  · intro hd
    exact hd.2

/-- Witness for the amended C7 at n = 12 on a fresh instance: the returned set
is {12, 6, 3, 4, 2, 1}. -/
theorem claim_C7_witness :
    (1 : ℕ) ∈ ({12, 6, 3, 4, 2, 1} : Finset ℕ) ∧
      (12 : ℕ) ∈ ({12, 6, 3, 4, 2, 1} : Finset ℕ) ∧
      ∀ d : ℕ, d ∈ ({12, 6, 3, 4, 2, 1} : Finset ℕ) ↔ (0 < d ∧ d ∣ 12) :=
  claim_C7_divisor_set 20 new 12 {12, 6, 3, 4, 2, 1} new (by decide) (by norm_num)
    (by rfl)

/-- Claim C8: whenever `factors(n)` returns a divisor set, `factor_sum(n)`
(started from the same cache state and fuel) returns exactly the literal sum
of that set's elements; moreover in the multiplicative closed form the
division of (p^(e+1) - 1) by (p - 1) is exact for every entry (p, e) of the
factorization. -/
theorem claim_C8_divisor_sum (fuel : ℕ) (s : List ℕ) (n : ℕ) (S : Finset ℕ)
    (s' : List ℕ) (hc : IsCache s) (hn : 1 ≤ n)
    (hok : factors fuel s n = .ok (S, s')) :
    factor_sum fuel s n = .ok (∑ d ∈ S, d, s') ∧
      ∀ (l : List (ℕ × ℕ)) (s2 : List ℕ),
        prime_factorization fuel s n = .ok (l, s2) →
        ∀ pe ∈ l, (pe.1 - 1) ∣ (pe.1 ^ (pe.2 + 1) - 1) := by
  obtain ⟨l, hpf, hprod, hprim, hpw, hS⟩ := factors_image fuel s n S s' hc hn hok
  have hl2 : ∀ pe ∈ l, 2 ≤ pe.1 := fun pe hpe => (hprim pe hpe).1.two_le
  have hpr : ∀ pe ∈ l, Nat.Prime pe.1 := fun pe hpe => (hprim pe hpe).1
  constructor
  · have hinj : ∀ x ∈ Finset.range (tauOf l), ∀ y ∈ Finset.range (tauOf l),
        factorOf l x = factorOf l y → x = y := by
      intro x hx y hy
      exact factorOf_inj l hpr hpw x (Finset.mem_range.mp hx) y (Finset.mem_range.mp hy)
    have hsum : ∑ d ∈ S, d = ∑ v ∈ Finset.range (tauOf l), factorOf l v := by
      rw [hS]
      exact Finset.sum_image hinj
    rw [factor_sum, hpf]
    dsimp only
    rw [Res.ok.injEq, Prod.mk.injEq]
    exact ⟨by rw [factor_sum_fold_eq l hl2, hsum], rfl⟩
  · intro l2 s2 hpf2
    rw [hpf, Res.ok.injEq, Prod.mk.injEq] at hpf2
    obtain ⟨hleq, -⟩ := hpf2
    subst hleq
    intro pe hpe
    exact geom_dvd (hl2 pe hpe) pe.2

/-- Witness for C8 at n = 12 on a fresh instance: factor_sum returns 28, the
sum of {12, 6, 3, 4, 2, 1}. -/
theorem claim_C8_witness :
    factor_sum 20 new 12 = .ok (∑ d ∈ ({12, 6, 3, 4, 2, 1} : Finset ℕ), d, new) :=
  (claim_C8_divisor_sum 20 new 12 {12, 6, 3, 4, 2, 1} new (by decide) (by norm_num)
    (by rfl)).1

/-- Claim C9: whenever `factors(n)` returns a divisor set, `factor_count(n)`
(started from the same cache state and fuel) returns exactly that set's
cardinality. -/
theorem claim_C9_divisor_count (fuel : ℕ) (s : List ℕ) (n : ℕ) (S : Finset ℕ)
    (s' : List ℕ) (hc : IsCache s) (hn : 1 ≤ n)
    (hok : factors fuel s n = .ok (S, s')) :
    factor_count fuel s n = .ok (S.card, s') := by
  obtain ⟨l, hpf, hprod, hprim, hpw, hS⟩ := factors_image fuel s n S s' hc hn hok
  have hpr : ∀ pe ∈ l, Nat.Prime pe.1 := fun pe hpe => (hprim pe hpe).1
  have hcard : S.card = tauOf l := by
    rw [hS, Finset.card_image_of_injOn, Finset.card_range]
    intro x hx y hy hxy
    exact factorOf_inj l hpr hpw x (Finset.mem_range.mp (Finset.mem_coe.mp hx)) y
      (Finset.mem_range.mp (Finset.mem_coe.mp hy)) hxy
  rw [factor_count, hpf]
  dsimp only
  rw [Res.ok.injEq, Prod.mk.injEq]
  exact ⟨by rw [factor_count_fold_eq, hcard], rfl⟩

/-- Witness for C9 at n = 12 on a fresh instance: factor_count returns 6, the
cardinality of {12, 6, 3, 4, 2, 1}. -/
theorem claim_C9_witness :
    factor_count 20 new 12 = .ok (({12, 6, 3, 4, 2, 1} : Finset ℕ).card, new) :=
  claim_C9_divisor_count 20 new 12 {12, 6, 3, 4, 2, 1} new (by decide) (by norm_num)
    (by rfl)
